import Mathlib

/-!
Verification of the kabka locale-collision scanner (`kabka.py`).

The development shallowly embeds the decision logic of the script:
the locale extractor `locale_used`, the memoized language-tag validator
`_validated_lang` (here `validated_lang`, with the `functools.lru_cache`
memo made explicit as a cache state), the per-target probe `test_one`,
and the batch coordination loop of `report_mode` (here `report_mode_run`,
with the completed/failed futures passed in completion order).

External collaborators are parameters: the HTTP transport is a function
`String → Except String Resp` (a request either fails with an error
description, mirroring `requests.RequestException`, or returns body and
`Set-Cookie` header text), and the `langcodes` validity oracle is a
function `String → OracleOut` (it either raises or returns an object
whose validity is a boolean).
-/

namespace Kabka

/-- The verdict vocabulary of `test_one`: the first components of the
`(label, evidence)` pairs stored in `results`. -/
inductive Label where
  | ok
  | collision
  | alt
  | fallback
  | unk
  | error
  deriving DecidableEq

/-- A successful HTTP response as the core consumes it: `r.text` and
`r.headers.get("Set-Cookie", "")`. -/
structure Resp where
  body : String
  cookie : String
  deriving DecidableEq

/-- The character class `[-a-zA-Z]` of both extraction regexes. -/
def isTagChar (c : Char) : Bool :=
  c == '-' || c.isAlpha

/-- Word characters for the `\b` boundary in `<html[^>]*\blang=`.
Python's `\b` on `str` is Unicode-aware; the markers kabka matches are
ASCII, and this models the ASCII word characters `[a-zA-Z0-9_]`. -/
def isWordChar (c : Char) : Bool :=
  c.isAlphanum || c == '_'

/-- The single-quote character, one of the two quotes accepted by
`lang=["\']` in the body regex. -/
def squote : Char := Char.ofNat 39

/-- Attempt the tail `\blang=["\']([-a-zA-Z]+)` of the body regex at the
current position, where `prev` is the character just before the position
(the final `l` of `<html` when `[^>]*` consumed nothing).  The captured
group is the maximal run of `[-a-zA-Z]` characters, and must be
nonempty. -/
def tryLang (prev : Char) (l : List Char) : Option (List Char) :=
  if isWordChar prev then none
  else
    match l with
    | a :: b :: c :: d :: e :: q :: rest =>
      if a = 'l' ∧ b = 'a' ∧ c = 'n' ∧ d = 'g' ∧ e = '=' ∧ (q = '"' ∨ q = squote) then
        if rest.takeWhile isTagChar = [] then none else some (rest.takeWhile isTagChar)
      else none
    | _ => none

/-- The `[^>]*\blang=["\']([-a-zA-Z]+)` part of the body regex, entered
just after the literal `<html`.  `[^>]*` is greedy, so among the
positions reachable through non-`>` characters the match at the largest
offset wins: the recursive (deeper) result is preferred over a match at
the current position. -/
def scanHtml (prev : Char) (l : List Char) : Option (List Char) :=
  match l with
  | [] => tryLang prev []
  | c :: rest =>
    if c = '>' then tryLang prev (c :: rest)
    else
      match scanHtml c rest with
      | some t => some t
      | none => tryLang prev (c :: rest)

/-- Attempt the full body regex `<html[^>]*\blang=["\']([-a-zA-Z]+)` at
the current position. -/
def matchHtmlAt (l : List Char) : Option (List Char) :=
  match l with
  | a :: b :: c :: d :: e :: rest =>
    if a = '<' ∧ b = 'h' ∧ c = 't' ∧ d = 'm' ∧ e = 'l' then scanHtml 'l' rest else none
  | _ => none

/-- `re.search` of the body regex: try every position left to right and
return the first (leftmost) match's captured group. -/
def htmlLangSearch : List Char → Option (List Char)
  | [] => none
  | c :: rest =>
    match matchHtmlAt (c :: rest) with
    | some t => some t
    | none => htmlLangSearch rest

/-- Attempt the cookie regex `ae=l=([-a-zA-Z]+)` at the current
position. -/
def tryAeL (l : List Char) : Option (List Char) :=
  match l with
  | a :: b :: c :: d :: e :: rest =>
    if a = 'a' ∧ b = 'e' ∧ c = '=' ∧ d = 'l' ∧ e = '=' then
      if rest.takeWhile isTagChar = [] then none else some (rest.takeWhile isTagChar)
    else none
  | _ => none

/-- `re.search` of the cookie regex: leftmost match's captured group. -/
def cookieSearch : List Char → Option (List Char)
  | [] => none
  | c :: rest =>
    match tryAeL (c :: rest) with
    | some t => some t
    | none => cookieSearch rest

/-- `locale_used(html, cookie)`: first search the body for the
`<html ... lang=` marker, then (only if that fails) search the cookie
text for `ae=l=`, else return `None`. -/
def locale_used (html cookie : String) : Option String :=
  match htmlLangSearch html.toList with
  | some t => some (String.mk t)
  | none =>
    match cookieSearch cookie.toList with
    | some t => some (String.mk t)
    | none => none

/-- The fixed `CODES` table, in insertion order. -/
def CODES : List (String × String) :=
  [("oci", "Occitan"), ("kab", "Kabyle"), ("kam", "Kamba"), ("kac", "Kachin"),
   ("kal", "Greenlandic"), ("kar", "Karen"), ("kat", "Georgian"), ("kau", "Kanuri"),
   ("kaw", "Kawi"), ("kaz", "Kazakh")]

/-- The fallback set `FALLBACKS = {"en"}`. -/
def FALLBACKS : List String := ["en"]

/-- Python `str.startswith`, via the character lists (Lean's
`String.startsWith` is byte-based and does not reduce in the kernel). -/
def strStartsWith (s p : String) : Bool :=
  List.isPrefixOf p.toList s.toList

/-- Python `repr` of a string containing no quotes or escapes, as used by
the f-string `f"invalid locale {got!r}"` (extracted tags are letters and
hyphens only). -/
def pyRepr (s : String) : String :=
  String.mk (squote :: (s.toList ++ [squote]))

/-- Lines 78-101 of `test_one`, classifying the extracted locale for one
code.  `none`, and the Python-falsy empty string, give `unk`; an invalid
tag gives `unk`; then the alternate rules for `oci`/`kab`, the fallback
rule for those two codes, and finally the loose/strict comparison. -/
def classify_tag (valid : String → Bool) (loose : Bool) (code : String)
    (tag? : Option String) : Label × String :=
  match tag? with
  | none => (Label.unk, "no locale hint")
  | some got =>
    if got = "" then (Label.unk, "no locale hint")
    else if valid got = false then (Label.unk, "invalid locale " ++ pyRepr got)
    else if code = "oci" ∧ got = "oc" then (Label.alt, got)
    else if code = "kab" ∧ strStartsWith got ("kab") = true then (Label.alt, got)
    else if (code = "oci" ∨ code = "kab") ∧ FALLBACKS.any (fun f => strStartsWith got f) = true then
      (Label.fallback, got)
    else if loose = true then
      (if strStartsWith got code = true then Label.ok else Label.collision, got)
    else
      (if got = code then Label.ok else Label.collision, got)

/-- One iteration of the loop in `test_one`: a failed transport call
records `(error, str(e))`; a successful one is extracted and
classified. -/
def classify (valid : String → Bool) (loose : Bool) (code : String)
    (fetched : Except String Resp) : Label × String :=
  match fetched with
  | Except.error e => (Label.error, e)
  | Except.ok r => classify_tag valid loose code (locale_used r.body r.cookie)

/-- `test_one`: one verdict per code of the fixed `CODES` table, in table
order (Python dicts preserve insertion order).  The transport is the
`fetch` parameter; the memoized validator is abstracted by the pure
boolean `valid` (see `validated_lang` for the memoization itself). -/
def test_one (fetch : String → Except String Resp) (valid : String → Bool)
    (loose : Bool) : List (String × (Label × String)) :=
  CODES.map (fun cn => (cn.1, classify valid loose cn.1 (fetch cn.1)))

/-- The behaviour of `langcodes.Language.get(tag)` on one tag: it either
raises, or returns a language object whose `is_valid()` is a boolean. -/
inductive OracleOut where
  | raise
  | lang (valid : Bool)
  deriving DecidableEq

/-- The process-wide `lru_cache` state of `_validated_lang`, with a call
counter for the underlying oracle. -/
structure VCache where
  entries : List (String × Bool)
  calls : Nat
  deriving DecidableEq

/-- The body of `_validated_lang` without the cache: `Language.get`, with
`is_valid()` checked and any exception swallowed into `None` (here the
boolean records whether a language object, rather than `None`, is
returned). -/
def langGet (oracle : String → OracleOut) (tag : String) : Bool :=
  match oracle tag with
  | OracleOut.raise => false
  | OracleOut.lang v => v

/-- `_validated_lang` under `@lru_cache(maxsize=None)`: a cache hit
returns the memo without touching the oracle; a miss runs the body once,
stores the result, and bumps the oracle call counter. -/
def validated_lang (oracle : String → OracleOut) (tag : String) (st : VCache) :
    Bool × VCache :=
  match List.lookup tag st.entries with
  | some b => (b, st)
  | none => (langGet oracle tag, ⟨(tag, langGet oracle tag) :: st.entries, st.calls + 1⟩)

/-- The `SITES` table: key, name, URL. -/
def SITES : List (String × String × String) :=
  [("1", "DuckDuckGo", "https://duckduckgo.com/q=test "),
   ("2", "Nextcloud", "https://demo2.nextcloud.com/index.php/login ")]

/-- The `DEVICES` table: key, name, user-agent. -/
def DEVICES : List (String × String × String) :=
  [("1", "desktop", ""),
   ("2", "mobile", "Mozilla/5.0 (Android 13; Mobile; rv:109.0) Gecko/109.0 Firefox/119.0")]

/-- The four site × device combinations of `report_mode`. -/
def COMBOS : List (String × String) := [("1", "1"), ("1", "2"), ("2", "1"), ("2", "2")]

/-- What one `_job` future delivers on success: the resolved site name,
device name, and the `test_one` results for that target. -/
structure JobOut where
  siteName : String
  devName : String
  res : List (String × (Label × String))
  deriving DecidableEq

/-- A report key `(site_n, dev_n, code)`. -/
abbrev RKey := String × String × String

/-- A report entry: key with its `(label, evidence)` verdict. -/
abbrev REntry := RKey × (Label × String)

/-- The two insertions `report[(site_n, dev_n, code)] = res[code]` for
`code in ("oci", "kab")`.  A missing key in `res` is a `KeyError`,
which, like any exception in the collection loop, propagates. -/
def jobEntries (j : JobOut) : Except String (List REntry) :=
  match List.lookup ("oci") j.res, List.lookup ("kab") j.res with
  | some v1, some v2 =>
    Except.ok [((j.siteName, j.devName, "oci"), v1), ((j.siteName, j.devName, "kab"), v2)]
  | _, _ => Except.error ("KeyError")

/-- The `for fut in as_completed(futures)` loop of `report_mode`, over
the futures in completion order: `fut.result()` re-raises a failed
job's exception, which propagates out of the loop and discards the
report built so far. -/
def report_fold : List (Except String JobOut) → List REntry → Except String (List REntry)
  | [], acc => Except.ok acc
  | f :: rest, acc =>
    match f with
    | Except.error e => Except.error e
    | Except.ok j =>
      match jobEntries j with
      | Except.error e => Except.error e
      | Except.ok es => report_fold rest (acc ++ es)

/-- The derived collision list: keys of the report entries labelled
`collision`. -/
def collisions_of (rep : List REntry) : List RKey :=
  (rep.filter (fun e => e.2.1 == Label.collision)).map (fun e => e.1)

/-- `report_mode` as the batch coordinator sees it: collect the futures
(in completion order) into the report, or propagate the first failure;
on completion also derive the collision list. -/
def report_mode_run (futs : List (Except String JobOut)) :
    Except String (List REntry × List RKey) :=
  match report_fold futs [] with
  | Except.error e => Except.error e
  | Except.ok rep => Except.ok (rep, collisions_of rep)

/-- Declarative reading of what `scanHtml prev rest` can match: `rest`
splits as `[^>]*`-consumed characters `mid`, then `lang=`, a quote, the
captured nonempty tag run `t` (maximal: the next character, if any, is
not a tag character), with the `\b` boundary satisfied at the character
just before `lang` (`prev` when `mid` is empty). -/
def ScanMarker (prev : Char) (rest t : List Char) : Prop :=
  ∃ mid q post,
    rest = mid ++ ('l' :: 'a' :: 'n' :: 'g' :: '=' :: q :: (t ++ post)) ∧
    (∀ c ∈ mid, c ≠ '>') ∧
    isWordChar ((mid.getLast?).getD prev) = false ∧
    (q = '"' ∨ q = squote) ∧
    t ≠ [] ∧
    (∀ c ∈ t, isTagChar c = true) ∧
    (∀ c, post.head? = some c → isTagChar c = false)

/-- A body contains an html-tag language marker with tag `t`: somewhere
in it the literal `<html` occurs, followed (within the same run of
non-`>` characters) by a `lang=` attribute quoting the tag `t`. -/
def IsHtmlLangMarker (l t : List Char) : Prop :=
  ∃ pre rest, l = pre ++ ('<' :: 'h' :: 't' :: 'm' :: 'l' :: rest) ∧ ScanMarker 'l' rest t

/-- A cookie text contains an `ae=l=<tag>` marker with tag `t` (maximal
nonempty run of letters and hyphens). -/
def IsAeLMarker (l t : List Char) : Prop :=
  ∃ pre post,
    l = pre ++ ('a' :: 'e' :: '=' :: 'l' :: '=' :: (t ++ post)) ∧
    t ≠ [] ∧
    (∀ c ∈ t, isTagChar c = true) ∧
    (∀ c, post.head? = some c → isTagChar c = false)

/-- Modelled from the words of claim C1, for comparison with the source
behaviour: a plain text search returning the first tag of letters and
hyphens appearing in a `lang="<tag>"` or `lang='<tag>'` marker anywhere
in the body, on any element (no `<html` context required). -/
def tryLangPlain (l : List Char) : Option (List Char) :=
  match l with
  | a :: b :: c :: d :: e :: q :: rest =>
    if a = 'l' ∧ b = 'a' ∧ c = 'n' ∧ d = 'g' ∧ e = '=' ∧ (q = '"' ∨ q = squote) then
      if rest.takeWhile isTagChar = [] then none else some (rest.takeWhile isTagChar)
    else none
  | _ => none

/-- Modelled from the words of claim C1 (continued): the leftmost
`lang=` marker match anywhere in the body. -/
def langMarkerAnywhere : List Char → Option (List Char)
  | [] => none
  | c :: rest =>
    match tryLangPlain (c :: rest) with
    | some t => some t
    | none => langMarkerAnywhere rest

/-- Looking up a key in an association list built by keying a function
over a table: the first (and only) hit returns the function at that
key. -/
theorem lookup_keyed_map (g : String → Label × String) (cs : List (String × String))
    (code : String) :
    List.lookup code (cs.map fun cn => (cn.1, g cn.1)) =
      if code ∈ cs.map (fun cn => cn.1) then some (g code) else none := by
  induction cs with
  | nil => simp [List.lookup]
  | cons c rest ih =>
    simp only [List.map_cons, List.lookup, List.mem_cons]
    by_cases h : code = c.1
    · subst h
      simp
    · have hb : (code == c.1) = false := by simpa using h
      by_cases hm : code ∈ List.map (fun cn => cn.1) rest
      · simp [hb, ih, hm]
      · simp [hb, ih, hm, h]

/-- For a code other than `oci` and `kab`, neither alternate nor fallback
branch of the classification can fire. -/
theorem classify_tag_other_codes (valid : String → Bool) (loose : Bool) (code : String)
    (tag? : Option String) (h1 : code ≠ "oci") (h2 : code ≠ "kab") :
    (classify_tag valid loose code tag?).1 = Label.ok ∨
    (classify_tag valid loose code tag?).1 = Label.collision ∨
    (classify_tag valid loose code tag?).1 = Label.unk := by
  rcases tag? with _ | got
  · simp [classify_tag]
  · simp only [classify_tag]
    split_ifs with e1 e2 e3 e4 e5 e6 e7 <;> simp_all

example : locale_used ("<html lang=\"de\">") ("") = some ("de") := by rfl

example : locale_used ("<div lang=\"de\">") ("") = none := by rfl

example : locale_used ("") ("x; ae=l=fr; y") = some ("fr") := by rfl

example : locale_used ("<html lang=\"de\">") ("ae=l=fr") = some ("de") := by rfl

example : classify_tag (fun _ => true) true "kat" (some ("kat-GE")) = (Label.ok, "kat-GE") := by rfl

example : classify_tag (fun _ => true) false "kat" (some ("kat-GE")) = (Label.collision, "kat-GE") := by rfl

example : classify_tag (fun _ => true) false "kab" (some ("kab")) = (Label.alt, "kab") := by rfl

/-- Claim C3: for every target (transport behaviour) and every
loose/strict mode, `test_one` returns exactly one `(label, evidence)`
verdict for every code of the fixed `CODES` table: the key list is the
table's key list (duplicate-free), looking a code up yields exactly the
classification of that code's own transport outcome, and a transport
failure for one code records `(error, description)` for that code
without affecting any other code's verdict. -/
theorem probe_total_per_code (fetch : String → Except String Resp)
    (valid : String → Bool) (loose : Bool) :
    ((test_one fetch valid loose).map (fun e => e.1) = CODES.map (fun cn => cn.1)) ∧
    (((test_one fetch valid loose).map (fun e => e.1)).Nodup) ∧
    (∀ code, List.lookup code (test_one fetch valid loose) =
      if code ∈ CODES.map (fun cn => cn.1) then some (classify valid loose code (fetch code))
      else none) ∧
    (∀ code e, code ∈ CODES.map (fun cn => cn.1) → fetch code = Except.error e →
      List.lookup code (test_one fetch valid loose) = some (Label.error, e)) := by
  have hkeys : (test_one fetch valid loose).map (fun e => e.1) = CODES.map (fun cn => cn.1) := by
    simp [test_one, Function.comp]
  have hlook : ∀ code, List.lookup code (test_one fetch valid loose) =
      if code ∈ CODES.map (fun cn => cn.1) then some (classify valid loose code (fetch code))
      else none := by
    intro code
    exact lookup_keyed_map (fun c => classify valid loose c (fetch c)) CODES code
  refine ⟨hkeys, ?_, hlook, ?_⟩
  · rw [hkeys]
    decide
  · intro code e hc hf
    rw [hlook code, if_pos hc]
    simp [classify, hf]

/-- Witness for C3: with a transport that fails for every code, the
verdict recorded for `kaz` is `(error, "boom")`. -/
theorem probe_total_per_code_witness :
    List.lookup ("kaz") (test_one (fun _ => Except.error ("boom")) (fun _ => true) false) =
      some (Label.error, "boom") :=
  (probe_total_per_code (fun _ => Except.error ("boom")) (fun _ => true) false).2.2.2
    ("kaz") ("boom") (by decide) rfl

/-- Claim C4: with a valid extracted tag, the classification applies the
alternate rule before the fallback rule and both before the generic
comparison: `oci` with tag `oc` is `(alt, "oc")` in both modes; `kab`
with a tag starting with `kab` is `(alt, tag)`; otherwise, for the two
codes of interest, a tag starting with the fallback set's `en` is
`(fallback, tag)`. -/
theorem alt_rules_then_fallback (valid : String → Bool) (loose : Bool) :
    (valid ("oc") = true → classify_tag valid loose "oci" (some ("oc")) = (Label.alt, "oc")) ∧
    (∀ tag, valid tag = true → strStartsWith tag ("kab") = true →
      classify_tag valid loose "kab" (some tag) = (Label.alt, tag)) ∧
    (∀ code tag, (code = "oci" ∨ code = "kab") → valid tag = true → tag ≠ "" →
      ¬(code = "oci" ∧ tag = "oc") → ¬(code = "kab" ∧ strStartsWith tag ("kab") = true) →
      strStartsWith tag ("en") = true →
      classify_tag valid loose code (some tag) = (Label.fallback, tag)) := by
  refine ⟨?_, ?_, ?_⟩
  · intro h
    simp [classify_tag, h]
  · intro tag hv hk
    have hne : tag ≠ "" := by
      intro h0
      subst h0
      exact absurd hk (by decide)
    simp [classify_tag, hne, hv, hk]
  · intro code tag hc hv hne h1 h2 hen
    simp only [classify_tag]
    rw [if_neg hne, if_neg (by simp [hv]), if_neg h1, if_neg h2,
      if_pos ⟨hc, by simp [FALLBACKS, hen]⟩]

/-- Witness for C4: the three rules at concrete inputs, with an oracle
accepting everything: `oci`/`oc` is alt, `kab`/`kab-DZ` is alt, and
`oci`/`en-US` is fallback (all strict mode). -/
theorem alt_rules_then_fallback_witness :
    classify_tag (fun _ => true) false "oci" (some ("oc")) = (Label.alt, "oc") ∧
    classify_tag (fun _ => true) false "kab" (some ("kab-DZ")) = (Label.alt, "kab-DZ") ∧
    classify_tag (fun _ => true) false "oci" (some ("en-US")) = (Label.fallback, "en-US") :=
  ⟨(alt_rules_then_fallback (fun _ => true) false).1 rfl,
   (alt_rules_then_fallback (fun _ => true) false).2.1 ("kab-DZ") rfl (by decide),
   (alt_rules_then_fallback (fun _ => true) false).2.2 "oci" "en-US" (Or.inl rfl) rfl
     (by decide) (by decide) (by decide) (by decide)⟩

/-- Claim C5: `alt` and `fallback` are only ever assigned to the two
codes of interest: any entry of a `test_one` result whose code is
neither `oci` nor `kab` carries one of the labels `ok`, `collision`,
`unk`, `error`. -/
theorem non_interest_codes_labels (fetch : String → Except String Resp)
    (valid : String → Bool) (loose : Bool) (code : String) (v : Label × String)
    (hmem : (code, v) ∈ test_one fetch valid loose)
    (h1 : code ≠ "oci") (h2 : code ≠ "kab") :
    v.1 = Label.ok ∨ v.1 = Label.collision ∨ v.1 = Label.unk ∨ v.1 = Label.error := by
  rcases List.mem_map.mp hmem with ⟨cn, hcn, heq⟩
  simp only [Prod.mk.injEq] at heq
  obtain ⟨hc, hv⟩ := heq
  subst hc
  subst hv
  cases hf : fetch cn.1 with
  | error e => simp [classify, hf]
  | ok r =>
    have := classify_tag_other_codes valid loose cn.1 (locale_used r.body r.cookie) h1 h2
    simp only [classify, hf]
    tauto

/-- Witness for C5: the code `kat` (not a code of interest) with an
all-failing transport gets the label `error`. -/
theorem non_interest_codes_labels_witness :
    (Label.error, ("boom" : String)).1 = Label.ok ∨
    (Label.error, ("boom" : String)).1 = Label.collision ∨
    (Label.error, ("boom" : String)).1 = Label.unk ∨
    (Label.error, ("boom" : String)).1 = Label.error :=
  non_interest_codes_labels (fun _ => Except.error ("boom")) (fun _ => true) false
    "kat" (Label.error, "boom") (by decide) (by decide) (by decide)

/-- Claim C6: in the normal-verdict branch (valid nonempty tag, neither
alternate nor fallback rule applicable) loose mode compares by prefix
and strict mode by equality, with the tag as evidence; in particular
`kat` with tag `kat-GE` is `ok` in loose mode and `collision` in strict
mode. -/
theorem normal_branch_loose_strict :
    (∀ (valid : String → Bool) (loose : Bool) (code tag : String),
      valid tag = true → tag ≠ "" →
      ¬(code = "oci" ∧ tag = "oc") →
      ¬(code = "kab" ∧ strStartsWith tag ("kab") = true) →
      ¬((code = "oci" ∨ code = "kab") ∧ FALLBACKS.any (fun f => strStartsWith tag f) = true) →
      classify_tag valid loose code (some tag) =
        ((if loose = true then (if strStartsWith tag code = true then Label.ok else Label.collision)
          else (if tag = code then Label.ok else Label.collision)), tag)) ∧
    (∀ valid : String → Bool, valid ("kat-GE") = true →
      classify_tag valid true "kat" (some ("kat-GE")) = (Label.ok, "kat-GE") ∧
      classify_tag valid false "kat" (some ("kat-GE")) = (Label.collision, "kat-GE")) := by
  constructor
  · intro valid loose code tag hv hne h1 h2 h3
    simp only [classify_tag]
    rw [if_neg hne, if_neg (by simp [hv]), if_neg h1, if_neg h2, if_neg h3]
    by_cases hl : loose = true
    · rw [if_pos hl, if_pos hl]
    · rw [if_neg hl, if_neg hl]
  · intro valid hv
    have hp : strStartsWith ("kat-GE") ("kat") = true := by decide
    have hq : strStartsWith ("kat-GE") ("en") = false := by decide
    constructor
    · simp [classify_tag, hv, hp]
    · simp [classify_tag, hv]

/-- Witness for C6: strict mode marks `kaz` against a served `de` as a
collision, and loose mode marks `kat` against `kat-GE` as ok. -/
theorem normal_branch_loose_strict_witness :
    classify_tag (fun _ => true) false "kaz" (some ("de")) = (Label.collision, "de") ∧
    classify_tag (fun _ => true) true "kat" (some ("kat-GE")) = (Label.ok, "kat-GE") := by
  constructor
  · have h := normal_branch_loose_strict.1 (fun _ => true) false "kaz" "de" rfl
      (by decide) (by decide) (by decide) (by decide)
    rw [h]
    decide
  · exact (normal_branch_loose_strict.2 (fun _ => true) rfl).1

/-- Claim C8: the validator is deterministic and memoized.  Running
`validated_lang` twice on the same tag returns the same boolean and the
second run leaves the cache state (including the oracle call counter)
untouched; one run invokes the oracle at most once; and a raising oracle
yields `false` (the exception is swallowed — the embedding is a total
function, so nothing propagates). -/
theorem validator_memoized (oracle : String → OracleOut) (tag : String) (st : VCache) :
    (validated_lang oracle tag ((validated_lang oracle tag st).2)).1 =
      (validated_lang oracle tag st).1 ∧
    (validated_lang oracle tag ((validated_lang oracle tag st).2)).2 =
      (validated_lang oracle tag st).2 ∧
    ((validated_lang oracle tag st).2).calls ≤ st.calls + 1 ∧
    (oracle tag = OracleOut.raise → List.lookup tag st.entries = none →
      (validated_lang oracle tag st).1 = false) := by
  cases h : List.lookup tag st.entries with
  | some b =>
    refine ⟨by simp [validated_lang, h], by simp [validated_lang, h], ?_, ?_⟩
    · simp [validated_lang, h]
    · intro _ hnone
      simp [h] at hnone
  | none =>
    refine ⟨?_, ?_, ?_, ?_⟩
    · simp [validated_lang, h, List.lookup]
    · simp [validated_lang, h, List.lookup]
    · simp [validated_lang, h]
    · intro hraise _
      simp [validated_lang, h, langGet, hraise]

/-- Witness for C8: a raising oracle on a fresh cache produces `false`,
and a second validation of the same tag returns the same boolean with no
further oracle call. -/
theorem validator_memoized_witness :
    (validated_lang (fun _ => OracleOut.raise) ("zz") ⟨[], 0⟩).1 = false ∧
    (validated_lang (fun _ => OracleOut.raise) ("zz")
        ((validated_lang (fun _ => OracleOut.raise) ("zz") ⟨[], 0⟩).2)).2 =
      (validated_lang (fun _ => OracleOut.raise) ("zz") ⟨[], 0⟩).2 :=
  ⟨(validator_memoized (fun _ => OracleOut.raise) ("zz") ⟨[], 0⟩).2.2.2 rfl rfl,
   (validator_memoized (fun _ => OracleOut.raise) ("zz") ⟨[], 0⟩).2.1⟩

/-- Claim C10: `kab` with the extracted tag exactly `kab` (an exact
match of the requested code) is classified `(alt, "kab")` in both modes:
the `kab`-prefix alternate rule fires before the generic comparison ever
runs, so the exact match is never labelled `ok`. -/
theorem kab_exact_match_alt (valid : String → Bool) (loose : Bool)
    (hv : valid ("kab") = true) :
    classify_tag valid loose "kab" (some ("kab")) = (Label.alt, "kab") := by
  have hp : strStartsWith ("kab") ("kab") = true := by decide
  simp [classify_tag, hv, hp]

/-- Witness for C10: with an all-accepting oracle, `kab`/`kab` is alt in
strict mode (in particular not `ok`). -/
theorem kab_exact_match_alt_witness :
    classify_tag (fun _ => true) false "kab" (some ("kab")) = (Label.alt, "kab") :=
  kab_exact_match_alt (fun _ => true) false rfl

/-- Taking while `p` of a block whose elements all satisfy `p`, followed
by a remainder whose head (if any) does not, returns exactly the
block. -/
theorem takeWhile_all_append (p : Char → Bool) (t post : List Char)
    (htag : ∀ c ∈ t, p c = true)
    (hpost : ∀ c, post.head? = some c → p c = false) :
    (t ++ post).takeWhile p = t := by
  induction t with
  | nil =>
    simp only [List.nil_append]
    cases post with
    | nil => rfl
    | cons x xs =>
      have hx := hpost x rfl
      simp [List.takeWhile_cons, hx]
  | cons x xs ih =>
    have hx := htag x (List.mem_cons_self x xs)
    simp only [List.cons_append, List.takeWhile_cons_of_pos hx]
    rw [ih (fun c hc => htag c (List.mem_cons_of_mem x hc))]

/-- The default of the optional last element of a cons shifts the
default to the head. -/
theorem getLastD_cons (a : Char) (l : List Char) (d : Char) :
    ((a :: l).getLast?).getD d = ((l.getLast?).getD a) := by
  cases l with
  | nil => rfl
  | cons b bs =>
    rw [List.getLast?_cons_cons]
    cases hh : (b :: bs).getLast? with
    | some x => rfl
    | none => exact absurd hh (by simp)

/-- Unfolding equation for `scanHtml` at a cons cell. -/
theorem scanHtml_cons (prev c : Char) (rest : List Char) :
    scanHtml prev (c :: rest) =
      if c = '>' then tryLang prev (c :: rest)
      else
        match scanHtml c rest with
        | some t => some t
        | none => tryLang prev (c :: rest) := rfl

/-- Unfolding equation for `htmlLangSearch` at a cons cell. -/
theorem htmlLangSearch_cons (c : Char) (rest : List Char) :
    htmlLangSearch (c :: rest) =
      match matchHtmlAt (c :: rest) with
      | some t => some t
      | none => htmlLangSearch rest := rfl

/-- Unfolding equation for `cookieSearch` at a cons cell. -/
theorem cookieSearch_cons (c : Char) (rest : List Char) :
    cookieSearch (c :: rest) =
      match tryAeL (c :: rest) with
      | some t => some t
      | none => cookieSearch rest := rfl

/-- Soundness of `tryLang`: a match means the input starts with
`lang=`, a quote, and the captured maximal nonempty tag run, and the
`\b` boundary held. -/
theorem tryLang_sound {prev : Char} {l t : List Char} (h : tryLang prev l = some t) :
    isWordChar prev = false ∧
    ∃ q post, l = 'l' :: 'a' :: 'n' :: 'g' :: '=' :: q :: (t ++ post) ∧
      (q = '"' ∨ q = squote) ∧ t ≠ [] ∧ (∀ c ∈ t, isTagChar c = true) ∧
      (∀ c, post.head? = some c → isTagChar c = false) := by
  unfold tryLang at h
  by_cases hw : isWordChar prev
  · rw [if_pos hw] at h
    exact Option.noConfusion h
  · rw [if_neg hw] at h
    refine ⟨by simpa using hw, ?_⟩
    rcases l with _ | ⟨a, _ | ⟨b, _ | ⟨c, _ | ⟨d, _ | ⟨e, _ | ⟨q, rest⟩⟩⟩⟩⟩⟩
    all_goals try exact Option.noConfusion h
    have h2 : (if a = 'l' ∧ b = 'a' ∧ c = 'n' ∧ d = 'g' ∧ e = '=' ∧ (q = '"' ∨ q = squote) then
        (if rest.takeWhile isTagChar = [] then none
         else some (rest.takeWhile isTagChar))
        else none) = some t := h
    split_ifs at h2 with hg hemp
    obtain ⟨ha, hb, hc, hd, he, hq⟩ := hg
    subst ha
    subst hb
    subst hc
    subst hd
    subst he
    injection h2 with h0
    subst h0
    refine ⟨q, rest.dropWhile isTagChar, ?_, hq, hemp, ?_, ?_⟩
    · simp [List.takeWhile_append_dropWhile]
    · intro c hc
      exact List.mem_takeWhile_imp hc
    · intro c hc
      have hh := List.head?_dropWhile_not isTagChar rest
      rw [hc] at hh
      exact hh

/-- Completeness of `tryLang` at a marker whose `[^>]*` part is
empty. -/
theorem tryLang_complete {prev q : Char} {t post : List Char}
    (hw : isWordChar prev = false) (hq : q = '"' ∨ q = squote) (ht : t ≠ [])
    (htag : ∀ c ∈ t, isTagChar c = true)
    (hpost : ∀ c, post.head? = some c → isTagChar c = false) :
    tryLang prev ('l' :: 'a' :: 'n' :: 'g' :: '=' :: q :: (t ++ post)) = some t := by
  have htake : (t ++ post).takeWhile isTagChar = t :=
    takeWhile_all_append isTagChar t post htag hpost
  have hstep : tryLang prev ('l' :: 'a' :: 'n' :: 'g' :: '=' :: q :: (t ++ post)) =
      (if isWordChar prev then none
       else if ('l' : Char) = 'l' ∧ ('a' : Char) = 'a' ∧ ('n' : Char) = 'n' ∧
           ('g' : Char) = 'g' ∧ ('=' : Char) = '=' ∧ (q = '"' ∨ q = squote) then
         (if (t ++ post).takeWhile isTagChar = [] then none
          else some ((t ++ post).takeWhile isTagChar))
       else none) := rfl
  rw [hstep, if_neg (by simp [hw]), if_pos ⟨rfl, rfl, rfl, rfl, rfl, hq⟩, htake, if_neg ht]

/-- Soundness of the greedy `[^>]*` scan: any result is a declarative
marker of the scanned suffix. -/
theorem scanHtml_sound : ∀ {prev : Char} {l t : List Char},
    scanHtml prev l = some t → ScanMarker prev l t := by
  intro prev l
  induction l generalizing prev with
  | nil =>
    intro t h
    unfold scanHtml tryLang at h
    by_cases hw : isWordChar prev
    · rw [if_pos hw] at h
      exact Option.noConfusion h
    · rw [if_neg hw] at h
      exact Option.noConfusion h
  | cons c rest ih =>
    intro t h
    rw [scanHtml_cons] at h
    by_cases hgt : c = '>'
    · rw [if_pos hgt] at h
      obtain ⟨hw, q, post, heq, hq, hne, htag, hpost⟩ := tryLang_sound h
      exact ⟨[], q, post, by simpa using heq, by simp, by simpa using hw, hq, hne, htag, hpost⟩
    · rw [if_neg hgt] at h
      cases hrec : scanHtml c rest with
      | some t0 =>
        rw [hrec] at h
        injection h with h0
        subst h0
        obtain ⟨mid, q, post, heq, hmid, hlast, hq, hne, htag, hpost⟩ := ih hrec
        refine ⟨c :: mid, q, post, by simp [heq], ?_, ?_, hq, hne, htag, hpost⟩
        · intro x hx
          rcases List.mem_cons.mp hx with h1 | h1
          · subst h1
            exact hgt
          · exact hmid x h1
        · rw [getLastD_cons]
          exact hlast
      | none =>
        rw [hrec] at h
        obtain ⟨hw, q, post, heq, hq, hne, htag, hpost⟩ := tryLang_sound h
        exact ⟨[], q, post, by simpa using heq, by simp, by simpa using hw, hq, hne, htag, hpost⟩

/-- Completeness of the greedy scan: if a declarative marker exists in
the suffix, the scan returns some captured tag. -/
theorem scanHtml_complete_aux : ∀ (mid : List Char) (prev q : Char) (t post : List Char),
    (∀ c ∈ mid, c ≠ '>') → isWordChar ((mid.getLast?).getD prev) = false →
    (q = '"' ∨ q = squote) → t ≠ [] → (∀ c ∈ t, isTagChar c = true) →
    (∀ c, post.head? = some c → isTagChar c = false) →
    ∃ u, scanHtml prev (mid ++ ('l' :: 'a' :: 'n' :: 'g' :: '=' :: q :: (t ++ post))) = some u := by
  intro mid
  induction mid with
  | nil =>
    intro prev q t post _ hw hq ht htag hpost
    have hmain := @tryLang_complete prev q t post (by simpa using hw) hq ht htag hpost
    simp only [List.nil_append]
    rw [scanHtml_cons, if_neg (by decide)]
    cases hrec : scanHtml 'l' ('a' :: 'n' :: 'g' :: '=' :: q :: (t ++ post)) with
    | some u => exact ⟨u, rfl⟩
    | none => exact ⟨t, hmain⟩
  | cons x mid ih =>
    intro prev q t post hmid hw hq ht htag hpost
    have hx : x ≠ '>' := hmid x (List.mem_cons_self x mid)
    have hw2 : isWordChar ((mid.getLast?).getD x) = false := by
      rw [← getLastD_cons x mid prev]
      exact hw
    obtain ⟨u, hu⟩ := ih x q t post (fun c hc => hmid c (List.mem_cons_of_mem x hc)) hw2 hq ht htag hpost
    simp only [List.cons_append]
    rw [scanHtml_cons, if_neg hx, hu]
    exact ⟨u, rfl⟩

/-- Soundness of the anchored `<html` match. -/
theorem matchHtmlAt_sound {l t : List Char} (h : matchHtmlAt l = some t) :
    ∃ rest, l = '<' :: 'h' :: 't' :: 'm' :: 'l' :: rest ∧ ScanMarker 'l' rest t := by
  unfold matchHtmlAt at h
  rcases l with _ | ⟨a, _ | ⟨b, _ | ⟨c, _ | ⟨d, _ | ⟨e, rest⟩⟩⟩⟩⟩
  all_goals try exact Option.noConfusion h
  have h2 : (if a = '<' ∧ b = 'h' ∧ c = 't' ∧ d = 'm' ∧ e = 'l' then scanHtml 'l' rest
      else none) = some t := h
  split_ifs at h2 with hg
  obtain ⟨ha, hb, hc, hd, he⟩ := hg
  subst ha
  subst hb
  subst hc
  subst hd
  subst he
  exact ⟨rest, rfl, scanHtml_sound h2⟩

/-- Completeness of the anchored `<html` match. -/
theorem matchHtmlAt_complete {rest t : List Char} (h : ScanMarker 'l' rest t) :
    ∃ u, matchHtmlAt ('<' :: 'h' :: 't' :: 'm' :: 'l' :: rest) = some u := by
  obtain ⟨mid, q, post, heq, hmid, hw, hq, ht, htag, hpost⟩ := h
  subst heq
  obtain ⟨u, hu⟩ := scanHtml_complete_aux mid 'l' q t post hmid hw hq ht htag hpost
  refine ⟨u, ?_⟩
  have hstep : matchHtmlAt ('<' :: 'h' :: 't' :: 'm' :: 'l' ::
      (mid ++ ('l' :: 'a' :: 'n' :: 'g' :: '=' :: q :: (t ++ post)))) =
      (if ('<' : Char) = '<' ∧ ('h' : Char) = 'h' ∧ ('t' : Char) = 't' ∧
          ('m' : Char) = 'm' ∧ ('l' : Char) = 'l' then
        scanHtml 'l' (mid ++ ('l' :: 'a' :: 'n' :: 'g' :: '=' :: q :: (t ++ post)))
      else none) := rfl
  rw [hstep, if_pos ⟨rfl, rfl, rfl, rfl, rfl⟩]
  exact hu

/-- Soundness of the full body search: a returned tag really sits in an
`<html`-anchored lang marker of the body. -/
theorem htmlLangSearch_sound : ∀ {l t : List Char},
    htmlLangSearch l = some t → IsHtmlLangMarker l t := by
  intro l
  induction l with
  | nil =>
    intro t h
    exact Option.noConfusion h
  | cons c rest ih =>
    intro t h
    rw [htmlLangSearch_cons] at h
    cases hm : matchHtmlAt (c :: rest) with
    | some t0 =>
      rw [hm] at h
      injection h with h0
      subst h0
      obtain ⟨r, hr, hs⟩ := matchHtmlAt_sound hm
      exact ⟨[], r, by simpa using hr, hs⟩
    | none =>
      rw [hm] at h
      obtain ⟨pre, r, hl, hs⟩ := ih h
      exact ⟨c :: pre, r, by simp [hl], hs⟩

/-- Completeness of the full body search: wherever an `<html`-anchored
lang marker occurs, the search returns some tag. -/
theorem htmlLangSearch_complete : ∀ {l t : List Char},
    IsHtmlLangMarker l t → ∃ u, htmlLangSearch l = some u := by
  intro l t hmark
  obtain ⟨pre, rest, hl, hs⟩ := hmark
  subst hl
  induction pre with
  | nil =>
    obtain ⟨u, hu⟩ := matchHtmlAt_complete hs
    refine ⟨u, ?_⟩
    simp only [List.nil_append]
    rw [htmlLangSearch_cons, hu]
  | cons p pre ih =>
    obtain ⟨u, hu⟩ := ih
    simp only [List.cons_append]
    rw [htmlLangSearch_cons]
    cases hm : matchHtmlAt (p :: (pre ++ ('<' :: 'h' :: 't' :: 'm' :: 'l' :: rest))) with
    | some w => exact ⟨w, rfl⟩
    | none => exact ⟨u, hu⟩

/-- Soundness of the cookie pattern attempt. -/
theorem tryAeL_sound {l t : List Char} (h : tryAeL l = some t) :
    ∃ post, l = 'a' :: 'e' :: '=' :: 'l' :: '=' :: (t ++ post) ∧ t ≠ [] ∧
      (∀ c ∈ t, isTagChar c = true) ∧
      (∀ c, post.head? = some c → isTagChar c = false) := by
  unfold tryAeL at h
  rcases l with _ | ⟨a, _ | ⟨b, _ | ⟨c, _ | ⟨d, _ | ⟨e, rest⟩⟩⟩⟩⟩
  all_goals try exact Option.noConfusion h
  have h2 : (if a = 'a' ∧ b = 'e' ∧ c = '=' ∧ d = 'l' ∧ e = '=' then
      (if rest.takeWhile isTagChar = [] then none
       else some (rest.takeWhile isTagChar))
      else none) = some t := h
  split_ifs at h2 with hg hemp
  obtain ⟨ha, hb, hc, hd, he⟩ := hg
  subst ha
  subst hb
  subst hc
  subst hd
  subst he
  injection h2 with h0
  subst h0
  refine ⟨rest.dropWhile isTagChar, ?_, hemp, ?_, ?_⟩
  · simp [List.takeWhile_append_dropWhile]
  · intro c hc
    exact List.mem_takeWhile_imp hc
  · intro c hc
    have hh := List.head?_dropWhile_not isTagChar rest
    rw [hc] at hh
    exact hh

/-- Completeness of the cookie pattern attempt at the marker. -/
theorem tryAeL_complete {t post : List Char}
    (ht : t ≠ []) (htag : ∀ c ∈ t, isTagChar c = true)
    (hpost : ∀ c, post.head? = some c → isTagChar c = false) :
    tryAeL ('a' :: 'e' :: '=' :: 'l' :: '=' :: (t ++ post)) = some t := by
  have htake : (t ++ post).takeWhile isTagChar = t :=
    takeWhile_all_append isTagChar t post htag hpost
  have hstep : tryAeL ('a' :: 'e' :: '=' :: 'l' :: '=' :: (t ++ post)) =
      (if ('a' : Char) = 'a' ∧ ('e' : Char) = 'e' ∧ ('=' : Char) = '=' ∧
          ('l' : Char) = 'l' ∧ ('=' : Char) = '=' then
        (if (t ++ post).takeWhile isTagChar = [] then none
         else some ((t ++ post).takeWhile isTagChar))
      else none) := rfl
  rw [hstep, if_pos ⟨rfl, rfl, rfl, rfl, rfl⟩, htake, if_neg ht]

/-- Soundness of the cookie search. -/
theorem cookieSearch_sound : ∀ {l t : List Char},
    cookieSearch l = some t → IsAeLMarker l t := by
  intro l
  induction l with
  | nil =>
    intro t h
    exact Option.noConfusion h
  | cons c rest ih =>
    intro t h
    rw [cookieSearch_cons] at h
    cases hm : tryAeL (c :: rest) with
    | some t0 =>
      rw [hm] at h
      injection h with h0
      subst h0
      obtain ⟨post, hl, ht, htag, hpost⟩ := tryAeL_sound hm
      exact ⟨[], post, by simpa using hl, ht, htag, hpost⟩
    | none =>
      rw [hm] at h
      obtain ⟨pre, post, hl, ht, htag, hpost⟩ := ih h
      exact ⟨c :: pre, post, by simp [hl], ht, htag, hpost⟩

/-- Completeness of the cookie search. -/
theorem cookieSearch_complete : ∀ {l t : List Char},
    IsAeLMarker l t → ∃ u, cookieSearch l = some u := by
  intro l t hmark
  obtain ⟨pre, post, hl, ht, htag, hpost⟩ := hmark
  subst hl
  induction pre with
  | nil =>
    refine ⟨t, ?_⟩
    simp only [List.nil_append]
    rw [cookieSearch_cons, tryAeL_complete ht htag hpost]
  | cons p pre ih =>
    obtain ⟨u, hu⟩ := ih
    simp only [List.cons_append]
    rw [cookieSearch_cons]
    cases hm : tryAeL (p :: (pre ++ ('a' :: 'e' :: '=' :: 'l' :: '=' :: (t ++ post)))) with
    | some w => exact ⟨w, rfl⟩
    | none => exact ⟨u, hu⟩

/-- Counterexample for C1: the claim-worded body rule (first `lang=` marker
on any element) finds `de` in `<div lang="de">`, but `locale_used`
returns nothing for that body: the source regex only matches `lang=`
inside a tag opening `<html`. -/
theorem body_marker_any_element_cex :
    langMarkerAnywhere (String.toList ("<div lang=\"de\">")) = some (String.toList ("de")) ∧
    locale_used ("<div lang=\"de\">") ("") = none :=
  ⟨rfl, rfl⟩

/-- Claim C1 (amended): the body rule is a plain text search, but only
for markers sitting inside a tag that opens with the literal `<html`
(anywhere in the body, not just a true root element): every tag the
search returns comes from such a marker (soundness), and whenever such a
marker occurs somewhere in the body the search returns a tag
(completeness); `lang=` attributes on other elements alone are never
matched. -/
theorem body_rule_html_scope (body cookie : String) :
    (∀ t, htmlLangSearch body.toList = some t →
      IsHtmlLangMarker body.toList t ∧ locale_used body cookie = some (String.mk t)) ∧
    (∀ t, IsHtmlLangMarker body.toList t → ∃ u, htmlLangSearch body.toList = some u) := by
  constructor
  · intro t h
    refine ⟨htmlLangSearch_sound h, ?_⟩
    unfold locale_used
    rw [h]
  · intro t h
    exact htmlLangSearch_complete h

/-- Witness for C1's amended theorem: a nested (non-root) `<html`
marker is found and wins, and its declarative marker shape holds. -/
theorem body_rule_html_scope_witness :
    IsHtmlLangMarker (String.toList ("<p><html lang=\"de\">")) (String.toList ("de")) ∧
    locale_used ("<p><html lang=\"de\">") ("") = some ("de") := by
  have h := (body_rule_html_scope ("<p><html lang=\"de\">") ("")).1 (String.toList ("de")) rfl
  exact ⟨h.1, h.2⟩

/-- Claim C7: extraction precedence.  A body match always wins (the
cookie is ignored); only if the body search fails is the cookie searched
for the `ae=l=<tag>` pattern (sound and complete for that pattern), and
if both fail the result is nothing; concretely a `lang="de"` body marker
beats an `ae=l=fr` cookie. -/
theorem extract_precedence (body cookie : String) :
    (∀ t, htmlLangSearch body.toList = some t → locale_used body cookie = some (String.mk t)) ∧
    (htmlLangSearch body.toList = none →
      locale_used body cookie = (cookieSearch cookie.toList).map String.mk) ∧
    (∀ t, cookieSearch cookie.toList = some t → IsAeLMarker cookie.toList t) ∧
    (∀ t, IsAeLMarker cookie.toList t → ∃ u, cookieSearch cookie.toList = some u) ∧
    locale_used ("<html lang=\"de\">") ("ae=l=fr") = some ("de") := by
  refine ⟨?_, ?_, ?_, ?_, rfl⟩
  · intro t h
    unfold locale_used
    rw [h]
  · intro h
    unfold locale_used
    rw [h]
    cases hc : cookieSearch cookie.toList <;> simp
  · intro t h
    exact cookieSearch_sound h
  · intro t h
    exact cookieSearch_complete h

/-- Witness for C7: with both signals present the body wins (`de`); with
no body marker the cookie pattern is used (`fr`). -/
theorem extract_precedence_witness :
    locale_used ("<html lang=\"de\">") ("x; ae=l=fr") = some ("de") ∧
    locale_used ("<p>hi</p>") ("x; ae=l=fr") = some ("fr") := by
  constructor
  · exact (extract_precedence ("<html lang=\"de\">") ("x; ae=l=fr")).1 (String.toList ("de")) rfl
  · have h := (extract_precedence ("<p>hi</p>") ("x; ae=l=fr")).2.1 rfl
    rw [h]
    rfl

/-- A failed future anywhere in the completion order makes the whole
collection loop re-raise: the fold returns an error, whatever was
accumulated. -/
theorem report_fold_error (e : String) : ∀ (futs : List (Except String JobOut))
    (acc : List REntry), Except.error e ∈ futs →
    ∃ e2, report_fold futs acc = Except.error e2 := by
  intro futs
  induction futs with
  | nil =>
    intro acc h
    exact absurd h (List.not_mem_nil _)
  | cons f rest ih =>
    intro acc h
    rcases List.mem_cons.mp h with h1 | h1
    · cases h1
      exact ⟨e, rfl⟩
    · cases f with
      | error e3 => exact ⟨e3, rfl⟩
      | ok j =>
        cases hj : jobEntries j with
        | error e4 =>
          refine ⟨e4, ?_⟩
          show (match jobEntries j with
            | Except.error e => Except.error e
            | Except.ok es => report_fold rest (acc ++ es)) = Except.error e4
          rw [hj]
        | ok es =>
          obtain ⟨e2, h2⟩ := ih (acc ++ es) h1
          refine ⟨e2, ?_⟩
          show (match jobEntries j with
            | Except.error e => Except.error e
            | Except.ok es => report_fold rest (acc ++ es)) = Except.error e2
          rw [hj]
          exact h2

/-- Counterexample for C2: a batch of four futures in which the second
job raised.  The other three targets completed (their `test_one` maps
are full), yet `report_mode_run` returns the propagated exception: no
report is produced; the completed targets' entries are not in any
report and the batch is aborted, contrary to the claim. -/
theorem runner_failure_aborts_batch_cex :
    report_mode_run
      [Except.ok ⟨"DuckDuckGo", "desktop",
         test_one (fun _ => Except.error ("connection refused")) (fun _ => true) false⟩,
       Except.error ("boom"),
       Except.ok ⟨"Nextcloud", "desktop",
         test_one (fun _ => Except.error ("connection refused")) (fun _ => true) false⟩,
       Except.ok ⟨"Nextcloud", "mobile",
         test_one (fun _ => Except.error ("connection refused")) (fun _ => true) false⟩] =
      Except.error ("boom") := rfl

/-- Claim C2 (amended): when one probe-runner invocation fails entirely,
`fut.result()` re-raises inside the collection loop, so the coordinator
aborts the whole batch: it returns the propagated failure, produces no
report, and discards every other target's completed entries (the
failure is not silent, but it is not attributed to the one target
either). -/
theorem runner_failure_aborts_batch (futs : List (Except String JobOut)) (e : String)
    (h : Except.error e ∈ futs) :
    ∃ e2, report_mode_run futs = Except.error e2 := by
  obtain ⟨e2, h2⟩ := report_fold_error e futs [] h
  refine ⟨e2, ?_⟩
  unfold report_mode_run
  rw [h2]

/-- Witness for C2's amended theorem: a single failed future aborts the
run. -/
theorem runner_failure_aborts_batch_witness :
    ∃ e2, report_mode_run [Except.error ("boom")] = Except.error e2 :=
  runner_failure_aborts_batch [Except.error ("boom")] ("boom") (by simp)

/-- If every future completed and carries verdicts for both codes of
interest, the collection loop succeeds and appends, per job in
completion order, exactly its two `(site, device, code)` entries. -/
theorem report_fold_ok : ∀ (jobs : List JobOut),
    (∀ j ∈ jobs, (List.lookup ("oci") j.res).isSome ∧ (List.lookup ("kab") j.res).isSome) →
    ∀ acc, ∃ rep, report_fold (jobs.map Except.ok) acc = Except.ok (acc ++ rep) ∧
      rep.map (fun en => en.1) =
        jobs.flatMap (fun j => [(j.siteName, j.devName, "oci"), (j.siteName, j.devName, "kab")]) ∧
      rep.length = 2 * jobs.length := by
  intro jobs
  induction jobs with
  | nil =>
    intro _ acc
    exact ⟨[], by simp [report_fold], by simp, by simp⟩
  | cons j rest ih =>
    intro hres acc
    obtain ⟨h1, h2⟩ := hres j (List.mem_cons_self j rest)
    obtain ⟨v1, hv1⟩ := Option.isSome_iff_exists.mp h1
    obtain ⟨v2, hv2⟩ := Option.isSome_iff_exists.mp h2
    have hj : jobEntries j =
        Except.ok [((j.siteName, j.devName, "oci"), v1), ((j.siteName, j.devName, "kab"), v2)] := by
      simp [jobEntries, hv1, hv2]
    obtain ⟨rep, hrep, hkeys, hlen⟩ :=
      ih (fun x hx => hres x (List.mem_cons_of_mem j hx))
        (acc ++ [((j.siteName, j.devName, "oci"), v1), ((j.siteName, j.devName, "kab"), v2)])
    refine ⟨[((j.siteName, j.devName, "oci"), v1), ((j.siteName, j.devName, "kab"), v2)] ++ rep,
      ?_, ?_, ?_⟩
    · have hstep : report_fold ((j :: rest).map Except.ok) acc =
          report_fold (rest.map Except.ok)
            (acc ++ [((j.siteName, j.devName, "oci"), v1), ((j.siteName, j.devName, "kab"), v2)]) := by
        show (match jobEntries j with
          | Except.error e => Except.error e
          | Except.ok es => report_fold (rest.map Except.ok) (acc ++ es)) =
          report_fold (rest.map Except.ok)
            (acc ++ [((j.siteName, j.devName, "oci"), v1), ((j.siteName, j.devName, "kab"), v2)])
        rw [hj]
      rw [hstep, hrep, List.append_assoc]
    · simp only [List.map_append, hkeys, List.flatMap_cons]
      rfl
    · simp only [List.length_append, hlen, List.length_cons, List.length_nil]
      omega

/-- Two entries per job give duplicate-free keys as soon as the
`(site, device)` pairs of the jobs are distinct. -/
theorem nodup_report_keys : ∀ (jobs : List JobOut),
    (jobs.map (fun j => (j.siteName, j.devName))).Nodup →
    (jobs.flatMap
      (fun j => [(j.siteName, j.devName, "oci"), (j.siteName, j.devName, "kab")])).Nodup := by
  intro jobs
  induction jobs with
  | nil =>
    intro _
    simp
  | cons j rest ih =>
    intro h
    rw [List.map_cons, List.nodup_cons] at h
    rw [List.flatMap_cons]
    refine List.Nodup.append (by simp) (ih h.2) ?_
    intro x hx1 hx2
    obtain ⟨j2, hj2, hx3⟩ := List.mem_flatMap.mp hx2
    have hpair : (j.siteName, j.devName) = (j2.siteName, j2.devName) := by
      rcases List.mem_cons.mp hx1 with h4 | h4
      · rw [h4] at hx3
        simp only [List.mem_cons, List.not_mem_nil, or_false, Prod.mk.injEq] at hx3
        rcases hx3 with ⟨hs, hd, _⟩ | ⟨hs, hd, hbad⟩
        · rw [hs, hd]
        · exact absurd hbad (by decide)
      · rw [List.mem_singleton.mp h4] at hx3
        simp only [List.mem_cons, List.not_mem_nil, or_false, Prod.mk.injEq] at hx3
        rcases hx3 with ⟨hs, hd, hbad⟩ | ⟨hs, hd, _⟩
        · exact absurd hbad (by decide)
        · rw [hs, hd]
    exact h.1 (List.mem_map.mpr ⟨j2, hj2, hpair.symm⟩)

/-- Claim C9: a completed batch run (every future resolves, each with a
full per-code verdict map) over N targets with distinct
`(site, device)` names yields a report of exactly `2 × N` entries — one
per (target, code-of-interest) pair, with duplicate-free keys, in any
completion order — and the derived collision list is exactly the keys of
the report entries labelled `collision`. -/
theorem batch_report_complete (jobs : List JobOut)
    (hres : ∀ j ∈ jobs, (List.lookup ("oci") j.res).isSome ∧ (List.lookup ("kab") j.res).isSome)
    (hkeys : (jobs.map (fun j => (j.siteName, j.devName))).Nodup) :
    ∃ rep cols, report_mode_run (jobs.map Except.ok) = Except.ok (rep, cols) ∧
      rep.length = 2 * jobs.length ∧
      rep.map (fun en => en.1) =
        jobs.flatMap (fun j => [(j.siteName, j.devName, "oci"), (j.siteName, j.devName, "kab")]) ∧
      (rep.map (fun en => en.1)).Nodup ∧
      cols = (rep.filter (fun en => en.2.1 == Label.collision)).map (fun en => en.1) := by
  obtain ⟨rep, hrep, hk, hlen⟩ := report_fold_ok jobs hres []
  refine ⟨rep, collisions_of rep, ?_, hlen, hk, ?_, rfl⟩
  · unfold report_mode_run
    rw [hrep]
    simp
  · rw [hk]
    exact nodup_report_keys jobs hkeys

/-- Witness for C9: a completed batch of two targets yields four report
entries. -/
theorem batch_report_complete_witness :
    ∃ rep cols,
      report_mode_run
        (([⟨"DuckDuckGo", "desktop", test_one (fun _ => Except.error ("x")) (fun _ => true) false⟩,
           ⟨"DuckDuckGo", "mobile", test_one (fun _ => Except.error ("x")) (fun _ => true) false⟩] :
          List JobOut).map Except.ok) =
        Except.ok (rep, cols) ∧ rep.length = 2 * 2 := by
  obtain ⟨rep, cols, h1, h2, _⟩ := batch_report_complete
    [⟨"DuckDuckGo", "desktop", test_one (fun _ => Except.error ("x")) (fun _ => true) false⟩,
     ⟨"DuckDuckGo", "mobile", test_one (fun _ => Except.error ("x")) (fun _ => true) false⟩]
    (by decide) (by decide)
  exact ⟨rep, cols, h1, h2⟩

end Kabka
